import Mathlib

/-!
Verification of the PublishSubscribe concurrency toolkit against its
natural-language specification.

The C++ sources are shallowly embedded: container states become lists
(head of the list = front/oldest element), thread loops become explicit
step functions or labelled transition relations, and time is modelled in
whole microseconds as natural numbers.  Each embedded operation carries a
comment pointing at the C++ member function it translates.
-/

/- ================================================================
   tools::sync_queue<T>  (src/tools/sync_queue.hpp)
   The std::queue<T> content is modelled as a list, head = front.
   The mutex only serialises operations; sequential semantics are the
   per-operation effects below.
   ================================================================ -/

/-- sync_queue::push (sync_queue.hpp lines 47-51): m_queue.push(elem),
inserting at the tail. -/
def sq_push {T : Type} (q : List T) (x : T) : List T :=
  q ++ [x]

/-- sync_queue::emplace (lines 53-57): m_queue.emplace(move(elem)), same
tail insertion as push. -/
def sq_emplace {T : Type} (q : List T) (x : T) : List T :=
  q ++ [x]

/-- sync_queue::empty (lines 102-106): m_queue.empty(). -/
def sq_empty {T : Type} (q : List T) : Bool :=
  q.isEmpty

/-- sync_queue::size (lines 108-112): m_queue.size(). -/
def sq_size {T : Type} (q : List T) : Nat :=
  q.length

/-- sync_queue::pop (lines 59-66): if (!m_queue.empty()) m_queue.pop();
removes the head element when present, no-op otherwise. -/
def sq_pop {T : Type} (q : List T) : List T :=
  if sq_empty q then q else q.tail

/-- sync_queue::front_pop (lines 68-78): under one lock, if the queue is
not empty read the front and pop it; returns the read element (if any)
and the resulting queue. -/
def sq_front_pop {T : Type} (q : List T) : Option T × List T :=
  if sq_empty q then (none, q) else (q.head?, q.tail)

/-- sync_queue::front (lines 80-89): reads the front without removal,
absent on an empty queue. -/
def sq_front {T : Type} (q : List T) : Option T :=
  if sq_empty q then none else q.head?

/-- sync_queue::back (lines 91-100): reads the back without removal,
absent on an empty queue. -/
def sq_back {T : Type} (q : List T) : Option T :=
  if sq_empty q then none else q.getLast?

/- ================================================================
   tools::ring_buffer<T, Capacity>
   ================================================================ -/

/-- Modelled from the spec: tools/ring_buffer.hpp is not under src/ (spec
section 1 excludes "the fixed-capacity ring buffer's raw storage
algorithm", consumed by the synchronized wrapper as an abstract bounded
FIFO with invariant size ≤ N).  The buffer content is a list, head =
oldest; push inserts at the tail, overwriting the oldest element when
the buffer is full (one of the two overflow policies the spec leaves to
the wrapped algorithm; no claim below depends on the overflow branch). -/
def rb_push {T : Type} (cap : Nat) (q : List T) (x : T) : List T :=
  if q.length < cap then q ++ [x] else q.tail ++ [x]

/-- Modelled from the spec: ring_buffer::pop removes the oldest element
(callers in sync_ring_buffer.hpp guard it with an empty() check). -/
def rb_pop {T : Type} (q : List T) : List T :=
  q.tail

/-- Modelled from the spec: ring_buffer::front reads the oldest element. -/
def rb_front {T : Type} (q : List T) : Option T :=
  q.head?

/-- Modelled from the spec: ring_buffer::back reads the newest element. -/
def rb_back {T : Type} (q : List T) : Option T :=
  q.getLast?

/-- Modelled from the spec: ring_buffer::empty. -/
def rb_empty {T : Type} (q : List T) : Bool :=
  q.isEmpty

/-- Modelled from the spec: ring_buffer::full (size has reached the
capacity). -/
def rb_full {T : Type} (cap : Nat) (q : List T) : Bool :=
  decide (cap ≤ q.length)

/-- Modelled from the spec: ring_buffer::size. -/
def rb_size {T : Type} (q : List T) : Nat :=
  q.length

/- ================================================================
   tools::sync_ring_buffer<T, Capacity>  (src/tools/sync_ring_buffer.hpp)
   The wrapper adds the mutex and the empty() guards; its per-operation
   effects on the wrapped buffer state are below.
   ================================================================ -/

/-- sync_ring_buffer::push (sync_ring_buffer.hpp lines 48-52). -/
def srb_push {T : Type} (cap : Nat) (q : List T) (x : T) : List T :=
  rb_push cap q x

/-- sync_ring_buffer::emplace (lines 54-58): same insertion as push. -/
def srb_emplace {T : Type} (cap : Nat) (q : List T) (x : T) : List T :=
  rb_push cap q x

/-- sync_ring_buffer::pop (lines 60-67): if (!m_ring_buffer.empty())
m_ring_buffer.pop(); -/
def srb_pop {T : Type} (q : List T) : List T :=
  if rb_empty q then q else rb_pop q

/-- sync_ring_buffer::front_pop (lines 69-79): under one lock, if not
empty read front then pop. -/
def srb_front_pop {T : Type} (q : List T) : Option T × List T :=
  if rb_empty q then (none, q) else (rb_front q, rb_pop q)

/-- sync_ring_buffer::front (lines 81-90). -/
def srb_front {T : Type} (q : List T) : Option T :=
  if rb_empty q then none else rb_front q

/-- sync_ring_buffer::back (lines 92-101). -/
def srb_back {T : Type} (q : List T) : Option T :=
  if rb_empty q then none else rb_back q

/- ================================================================
   Sequential operation traces over sync_queue, for the FIFO claim.
   ================================================================ -/

/-- One mutating sync_queue operation of a sequential history. -/
inductive QOp (T : Type) where
  | push : T → QOp T
  | emplace : T → QOp T
  | pop : QOp T
  | front_pop : QOp T

/-- Running record of a sequential sync_queue history: current queue
state plus ghost logs of every inserted element (insertion order), every
removed element (removal order) and every value returned by front_pop
(return order). -/
structure QTrace (T : Type) where
  state : List T
  ins : List T
  rems : List T
  outs : List T

/-- Effect of one operation on the running record; the state changes are
exactly sq_push / sq_emplace / sq_pop / sq_front_pop, the logs record
what the operation inserted, removed and returned. -/
def qstep {T : Type} (tr : QTrace T) : QOp T → QTrace T
  | .push x =>
      { tr with state := sq_push tr.state x, ins := tr.ins ++ [x] }
  | .emplace x =>
      { tr with state := sq_emplace tr.state x, ins := tr.ins ++ [x] }
  | .pop =>
      { tr with state := sq_pop tr.state, rems := tr.rems ++ tr.state.take 1 }
  | .front_pop =>
      let r := sq_front_pop tr.state
      { tr with
        state := r.2
        rems := tr.rems ++ tr.state.take 1
        outs := tr.outs ++ r.1.toList }

/-- A sequential history starting from the default-constructed (empty)
sync_queue. -/
def qrun {T : Type} (ops : List (QOp T)) : QTrace T :=
  ops.foldl qstep ⟨[], [], [], []⟩

lemma qstep_invariant {T : Type} (tr : QTrace T) (op : QOp T)
    (h1 : tr.rems ++ tr.state = tr.ins) (h2 : tr.outs.Sublist tr.rems) :
    (qstep tr op).rems ++ (qstep tr op).state = (qstep tr op).ins ∧
      (qstep tr op).outs.Sublist (qstep tr op).rems := by
  obtain ⟨st, ins0, rems0, outs0⟩ := tr
  simp only [QTrace.mk.injEq] at h1 h2 ⊢
  cases op with
  | push x =>
      refine ⟨?_, h2⟩
      simp only [qstep, sq_push]
      rw [← List.append_assoc, h1]
  | emplace x =>
      refine ⟨?_, h2⟩
      simp only [qstep, sq_emplace]
      rw [← List.append_assoc, h1]
  | pop =>
      refine ⟨?_, h2.trans (List.sublist_append_left _ _)⟩
      cases st with
      | nil => simpa [qstep, sq_pop, sq_empty] using h1
      | cons x xs =>
          simp only [qstep, sq_pop, sq_empty, List.isEmpty_cons, Bool.false_eq_true,
            if_false, List.take_succ_cons, List.take_zero, List.tail_cons]
          rw [List.append_assoc]
          simpa using h1
  | front_pop =>
      cases st with
      | nil =>
          refine ⟨?_, ?_⟩
          · simpa [qstep, sq_front_pop, sq_empty] using h1
          · simpa [qstep, sq_front_pop, sq_empty] using h2
      | cons x xs =>
          refine ⟨?_, ?_⟩
          · simp only [qstep, sq_front_pop, sq_empty, List.isEmpty_cons, Bool.false_eq_true,
              if_false, List.take_succ_cons, List.take_zero, List.tail_cons]
            rw [List.append_assoc]
            simpa using h1
          · simp only [qstep, sq_front_pop, sq_empty, List.isEmpty_cons, Bool.false_eq_true,
              if_false, List.take_succ_cons, List.take_zero, List.head?_cons,
              Option.toList_some]
            exact h2.append (List.Sublist.refl _)

lemma qrun_invariant {T : Type} (ops : List (QOp T)) :
    (qrun ops).rems ++ (qrun ops).state = (qrun ops).ins ∧
      (qrun ops).outs.Sublist (qrun ops).rems := by
  suffices h : ∀ tr : QTrace T, tr.rems ++ tr.state = tr.ins → tr.outs.Sublist tr.rems →
      (ops.foldl qstep tr).rems ++ (ops.foldl qstep tr).state = (ops.foldl qstep tr).ins ∧
        (ops.foldl qstep tr).outs.Sublist (ops.foldl qstep tr).rems by
    exact h ⟨[], [], [], []⟩ rfl (List.Sublist.refl _)
  induction ops with
  | nil => exact fun tr h1 h2 => ⟨h1, h2⟩
  | cons op ops ih =>
      intro tr h1 h2
      have h := qstep_invariant tr op h1 h2
      exact ih (qstep tr op) h.1 h.2

/-- C2: sync_queue<T> is a FIFO: along every sequential history of
push/emplace/pop/front_pop operations, the removed elements are exactly
an initial segment of the inserted elements in insertion order (so
removal order equals insertion order and no element is lost or
duplicated), the values returned by front_pop form a sub-history of the
removals (each pushed occurrence is returned at most once), and front
reads the oldest element still present while back reads the newest. -/
theorem sync_queue_fifo {T : Type} (ops : List (QOp T)) :
    (qrun ops).rems ++ (qrun ops).state = (qrun ops).ins ∧
      (qrun ops).rems <+: (qrun ops).ins ∧
      (qrun ops).outs.Sublist (qrun ops).rems ∧
      sq_front (qrun ops).state = ((qrun ops).ins.drop (qrun ops).rems.length).head? ∧
      sq_back (qrun ops).state = ((qrun ops).ins.drop (qrun ops).rems.length).getLast? := by
  obtain ⟨h1, h2⟩ := qrun_invariant ops
  have hdrop : ((qrun ops).ins.drop (qrun ops).rems.length) = (qrun ops).state := by
    rw [← h1]
    exact List.drop_left _ _
  refine ⟨h1, ⟨(qrun ops).state, h1⟩, h2, ?_, ?_⟩
  · rw [hdrop]
    cases (qrun ops).state with
    | nil => simp [sq_front, sq_empty]
    | cons x xs => simp [sq_front, sq_empty]
  · rw [hdrop]
    cases (qrun ops).state with
    | nil => simp [sq_back, sq_empty]
    | cons x xs => simp [sq_back, sq_empty]

/-- C7: on an empty sync_queue or sync_ring_buffer, front_pop, front and
back return an absent optional and leave the container unchanged, and
pop is a no-op (all operations are total, so no error is possible); on a
non-empty container pop and front_pop remove exactly the head (oldest)
element. -/
theorem containers_empty_safe {T : Type} (x : T) (xs : List T) :
    sq_front_pop ([] : List T) = (none, []) ∧
      sq_front ([] : List T) = none ∧
      sq_back ([] : List T) = none ∧
      sq_pop ([] : List T) = [] ∧
      srb_front_pop ([] : List T) = (none, []) ∧
      srb_front ([] : List T) = none ∧
      srb_back ([] : List T) = none ∧
      srb_pop ([] : List T) = [] ∧
      sq_pop (x :: xs) = xs ∧
      sq_front_pop (x :: xs) = (some x, xs) ∧
      srb_pop (x :: xs) = xs ∧
      srb_front_pop (x :: xs) = (some x, xs) := by
  refine ⟨rfl, rfl, rfl, rfl, rfl, rfl, rfl, rfl, ?_, ?_, ?_, ?_⟩ <;>
    simp [sq_pop, sq_front_pop, srb_pop, srb_front_pop, sq_empty, rb_empty, rb_pop, rb_front]

/- ================================================================
   tools::async_observer<Topic, Evt>  (src/tools/async_observer.hpp)
   State: the private event sync_queue (a list of queued
   (topic, event, origin) entries, head = oldest) plus the signaled flag
   of the private sync_object wakeable.  E stands for the event_entry
   triple type std::tuple<Topic, Evt, std::string>.
   ================================================================ -/

/-- State of an async_observer: its event queue and the signaled flag of
its m_wakeable sync_object. -/
structure AOState (E : Type) where
  evq : List E
  signaled : Bool

/-- async_observer::inform (async_observer.hpp lines 50-54):
m_evt_queue.push of the (topic, event, origin) entry, then
m_wakeable.signal(); returns without waiting for any consumer. -/
def ao_inform {E : Type} (s : AOState E) (e : E) : AOState E :=
  { s with evq := sq_push s.evq e, signaled := true }

/-- Loop body of async_observer::pop_all_events (lines 58-72):
while (!empty) { front_pop; if has_value, append to events }.
On a non-empty queue, front_pop returns the head (so has_value holds)
and leaves the tail, which the recursion consumes. -/
def ao_pop_all_loop {E : Type} : List E → List E → List E × List E
  | [], acc => (acc, [])
  | x :: xs, acc => ao_pop_all_loop xs (acc ++ [x])

/-- async_observer::pop_all_events (lines 58-72): drain the queue into a
vector, oldest first. -/
def ao_pop_all_events {E : Type} (s : AOState E) : List E × AOState E :=
  let r := ao_pop_all_loop s.evq []
  (r.1, { s with evq := r.2 })

/-- async_observer::pop_first_event (lines 74-84):
if (!empty) entry = front_pop; returns the optional entry. -/
def ao_pop_first_event {E : Type} (s : AOState E) : Option E × AOState E :=
  if sq_empty s.evq then (none, s)
  else
    let r := sq_front_pop s.evq
    (r.1, { s with evq := r.2 })

/-- Clearing loop of async_observer::pop_last_event (lines 96-99):
while (!empty) pop; on a non-empty queue sq_pop removes the head, which
the recursion consumes. -/
def ao_clear_loop {E : Type} : List E → List E
  | [] => []
  | _ :: xs => ao_clear_loop xs

/-- async_observer::pop_last_event (lines 86-104): if the queue is not
empty, read the back entry; if it has a value, pop everything; return
the entry. -/
def ao_pop_last_event {E : Type} (s : AOState E) : Option E × AOState E :=
  if sq_empty s.evq then (none, s)
  else
    match sq_back s.evq with
    | some e => (some e, { s with evq := ao_clear_loop s.evq })
    | none => (none, s)

/-- async_observer::has_events (line 106). -/
def ao_has_events {E : Type} (s : AOState E) : Bool :=
  !sq_empty s.evq

/-- async_observer::number_of_events (line 108). -/
def ao_number_of_events {E : Type} (s : AOState E) : Nat :=
  sq_size s.evq

lemma ao_clear_loop_eq_nil {E : Type} (q : List E) : ao_clear_loop q = [] := by
  induction q with
  | nil => rfl
  | cons x xs ih => simpa [ao_clear_loop] using ih

lemma ao_pop_all_loop_eq {E : Type} (q acc : List E) :
    ao_pop_all_loop q acc = (acc ++ q, []) := by
  induction q generalizing acc with
  | nil => simp [ao_pop_all_loop]
  | cons x xs ih => simp [ao_pop_all_loop, ih]

lemma sq_back_append_single {E : Type} (q : List E) (e : E) :
    sq_back (q ++ [e]) = some e := by
  cases q with
  | nil => rfl
  | cons x xs =>
      simp only [sq_back, sq_empty, List.cons_append, List.isEmpty_cons, Bool.false_eq_true,
        if_false]
      rw [show x :: (xs ++ [e]) = (x :: xs) ++ e :: [] from rfl, List.getLast?_append_cons]
      rfl

/-- C4: async_observer::pop_last_event returns the most recently
enqueued (topic, event, origin) entry and leaves the event queue empty,
dropping all older pending entries: on a queue whose newest entry is e
it returns some e and clears the queue, and after an inform of e it
returns exactly that informed entry; on an empty queue it returns none
and changes nothing. -/
theorem async_pop_last_event_spec {E : Type} (e : E) (q : List E) (sig : Bool) :
    ao_pop_last_event ⟨q ++ [e], sig⟩ = (some e, ⟨[], sig⟩) ∧
      ao_pop_last_event (ao_inform ⟨q, sig⟩ e) = (some e, ⟨[], true⟩) ∧
      ao_pop_last_event (⟨[], sig⟩ : AOState E) = (none, ⟨[], sig⟩) := by
  have hmain : ∀ sig' : Bool, ao_pop_last_event ⟨q ++ [e], sig'⟩ = (some e, ⟨[], sig'⟩) := by
    intro sig'
    have hne : sq_empty (q ++ [e]) = false := by
      cases q <;> simp [sq_empty]
    simp [ao_pop_last_event, hne, sq_back_append_single, ao_clear_loop_eq_nil]
  refine ⟨hmain sig, ?_, rfl⟩
  simpa [ao_inform, sq_push] using hmain true

/-- C5: async_observer::inform appends each entry at the tail of the
event queue (informing a sequence from an empty queue leaves exactly
that sequence queued, in order, and raises the signal), pop_all_events
returns all currently queued entries in FIFO order and leaves the queue
empty, and pop_first_event returns the oldest queued entry and removes
only it (absent on an empty queue) — so every informed entry is
retrieved exactly once and unmodified. -/
theorem async_inform_fifo_spec {E : Type} (e : E) (q es : List E) (sig : Bool) :
    (es.foldl ao_inform ⟨[], sig⟩).evq = es ∧
      ao_pop_all_events (⟨es, sig⟩ : AOState E) = (es, ⟨[], sig⟩) ∧
      ao_pop_first_event (⟨e :: q, sig⟩ : AOState E) = (some e, ⟨q, sig⟩) ∧
      ao_pop_first_event (⟨[], sig⟩ : AOState E) = (none, ⟨[], sig⟩) := by
  refine ⟨?_, ?_, ?_, rfl⟩
  · have h : ∀ (l : List E) (s : AOState E), (l.foldl ao_inform s).evq = s.evq ++ l := by
      intro l
      induction l with
      | nil => intro s; simp
      | cons x xs ih =>
          intro s
          simp [List.foldl_cons, ih, ao_inform, sq_push]
    simpa using h es ⟨[], sig⟩
  · simp [ao_pop_all_events, ao_pop_all_loop_eq]
  · simp [ao_pop_first_event, sq_empty, sq_front_pop]

/- ================================================================
   tools::worker_task<Context>  (src/tools/worker_task.hpp)
   The worker thread running run_loop is modelled as a labelled
   transition system; delegate calls from client threads interleave
   arbitrarily with the worker's own steps.
   ================================================================ -/

/-- Position of the worker thread inside worker_task::run_loop
(worker_task.hpp lines 88-103). -/
inductive WPhase where
  | atHead
  | waiting
  | draining
  | exited
deriving DecidableEq

/-- worker_task state: the m_stop_task flag, the signaled flag of the
m_work_sync sync_object, the worker thread's position in run_loop, the
m_work_queue content, plus ghost logs of the closures executed so far
(in invocation order) and delegated so far (in delegation order). -/
structure WState (W : Type) where
  stopFlag : Bool
  signaled : Bool
  phase : WPhase
  workQueue : List W
  executed : List W
  delegated : List W

/-- worker_task::delegate (worker_task.hpp lines 81-85):
m_work_queue.emplace(move(work)) then m_work_sync.signal(); callable
from any thread while the worker is in any phase. -/
def wdelegate {W : Type} (s : WState W) (w : W) : WState W :=
  { s with
    workQueue := sq_emplace s.workQueue w
    delegated := s.delegated ++ [w]
    signaled := true }

/-- Stop request of ~worker_task (lines 71-76): m_stop_task.store(true)
then m_work_sync.signal(); the join completes once run_loop exits. -/
def wstop {W : Type} (s : WState W) : WState W :=
  { s with stopFlag := true, signaled := true }

/-- One step of the worker thread executing worker_task::run_loop
(lines 88-103): check m_stop_task at the loop head (exit or wait);
sync_object::wait_for_signal returns once the sticky signal flag is
raised and consumes it; the inner loop runs front_pop and invokes the
returned closure while the queue is non-empty (single consumer, so
front_pop of the non-empty queue yields its head and has_value holds),
and returns to the loop head once the queue is empty. -/
inductive wstep {W : Type} : WState W → WState W → Prop where
  | exit_loop (s : WState W) (hp : s.phase = .atHead) (hs : s.stopFlag = true) :
      wstep s { s with phase := .exited }
  | enter_wait (s : WState W) (hp : s.phase = .atHead) (hs : s.stopFlag = false) :
      wstep s { s with phase := .waiting }
  | wake (s : WState W) (hp : s.phase = .waiting) (hs : s.signaled = true) :
      wstep s { s with phase := .draining, signaled := false }
  | exec_one (s : WState W) (x : W) (rest : List W) (hp : s.phase = .draining)
      (hq : s.workQueue = x :: rest) :
      wstep s { s with workQueue := rest, executed := s.executed ++ [x] }
  | drain_done (s : WState W) (hp : s.phase = .draining) (hq : s.workQueue = []) :
      wstep s { s with phase := .atHead }

/-- Full-system step: either the worker thread advances, or some client
thread delegates a closure, or the destructor requests stop and
signals. -/
inductive sysstep {W : Type} : WState W → WState W → Prop where
  | worker (s t : WState W) (h : wstep s t) : sysstep s t
  | client (s : WState W) (w : W) : sysstep s (wdelegate s w)
  | stopper (s : WState W) : sysstep s (wstop s)

/-- Freshly constructed worker_task: stop flag false, nothing signaled,
empty work queue, worker thread about to test the loop condition. -/
def winit {W : Type} : WState W :=
  ⟨false, false, .atHead, [], [], []⟩

lemma sysstep_invariant {W : Type} {s t : WState W} (h : sysstep s t)
    (hinv : s.executed ++ s.workQueue = s.delegated) :
    t.executed ++ t.workQueue = t.delegated := by
  cases h with
  | worker _ hw =>
      cases hw with
      | exit_loop hp hs => simpa using hinv
      | enter_wait hp hs => simpa using hinv
      | wake hp hs => simpa using hinv
      | exec_one x rest hp hq =>
          simp only [List.append_assoc, List.singleton_append]
          rw [← hq]
          exact hinv
      | drain_done hp hq => simpa using hinv
  | client w =>
      simp only [wdelegate, sq_emplace]
      rw [← List.append_assoc, hinv]
  | stopper => simpa [wstop] using hinv

lemma sysreach_invariant {W : Type} {s : WState W}
    (h : Relation.ReflTransGen sysstep winit s) :
    s.executed ++ s.workQueue = s.delegated := by
  induction h with
  | refl => rfl
  | tail _ hstep ih => exact sysstep_invariant hstep ih

/-- C3: along every interleaving of delegate calls and worker-thread
steps from a fresh worker_task, the executed closures followed by the
still-queued closures equal the delegated closures in delegation order
(so each delegated closure is executed at most once, none is lost or
reordered, and the executed history is always an initial segment of the delegation
history); moreover the worker leaves its inner drain loop only when the
work queue is empty, so once woken it drains the entire queue before
blocking on its Signal again. -/
theorem worker_fifo_drain {W : Type} :
    (∀ s : WState W, Relation.ReflTransGen sysstep winit s →
        s.executed ++ s.workQueue = s.delegated ∧ s.executed <+: s.delegated) ∧
      (∀ s t : WState W, wstep s t → s.phase = .draining → t.phase ≠ .draining →
        s.workQueue = []) := by
  constructor
  · intro s h
    have hinv := sysreach_invariant h
    exact ⟨hinv, ⟨s.workQueue, hinv⟩⟩
  · intro s t hstep hp ht
    cases hstep with
    | exit_loop hp' hs' => rw [hp'] at hp; cases hp
    | enter_wait hp' hs' => rw [hp'] at hp; cases hp
    | wake hp' hs' => rw [hp'] at hp; cases hp
    | exec_one x rest hp' hq' => exact absurd hp ht
    | drain_done hp' hq' => exact hq'

lemma wstep_not_from_exited {W : Type} {s t : WState W} (h : wstep s t)
    (hp : s.phase = .exited) : False := by
  cases h with
  | exit_loop hp' hs' => rw [hp'] at hp; cases hp
  | enter_wait hp' hs' => rw [hp'] at hp; cases hp
  | wake hp' hs' => rw [hp'] at hp; cases hp
  | exec_one x rest hp' hq' => rw [hp'] at hp; cases hp
  | drain_done hp' hq' => rw [hp'] at hp; cases hp

lemma exited_trace_fixed {W : Type} {s t : WState W}
    (h : Relation.ReflTransGen wstep s t) (hp : s.phase = .exited) : t = s := by
  rcases h.cases_head with heq | ⟨c, hstep, _⟩
  · exact heq.symm
  · exact absurd hp (fun hp => wstep_not_from_exited hstep hp)

lemma athead_stop_trace {W : Type} {t : WState W} (sig : Bool) (q es ds : List W)
    (h : Relation.ReflTransGen wstep ⟨true, sig, .atHead, q, es, ds⟩ t)
    (hp : t.phase = .exited) : t = ⟨true, sig, .exited, q, es, ds⟩ := by
  rcases h.cases_head with heq | ⟨c, hstep, hrest⟩
  · rw [← heq] at hp; cases hp
  · cases hstep with
    | exit_loop hp' hs' => exact exited_trace_fixed hrest rfl
    | enter_wait hp' hs' => cases hs'
    | wake hp' hs' => cases hp'
    | exec_one x rest hp' hq' => cases hp'
    | drain_done hp' hq' => cases hp'

lemma draining_stop_trace {W : Type} (sig : Bool) (ws : List W) :
    ∀ (es ds : List W) (t : WState W),
      Relation.ReflTransGen wstep ⟨true, sig, .draining, ws, es, ds⟩ t →
      t.phase = .exited → t = ⟨true, sig, .exited, [], es ++ ws, ds⟩ := by
  induction ws with
  | nil =>
      intro es ds t h hp
      rcases h.cases_head with heq | ⟨c, hstep, hrest⟩
      · rw [← heq] at hp; cases hp
      · cases hstep with
        | exit_loop hp' hs' => cases hp'
        | enter_wait hp' hs' => cases hp'
        | wake hp' hs' => cases hp'
        | exec_one x rest hp' hq' => cases hq'
        | drain_done hp' hq' =>
            simpa using athead_stop_trace sig [] es ds hrest hp
  | cons w ws ih =>
      intro es ds t h hp
      rcases h.cases_head with heq | ⟨c, hstep, hrest⟩
      · rw [← heq] at hp; cases hp
      · cases hstep with
        | exit_loop hp' hs' => cases hp'
        | enter_wait hp' hs' => cases hp'
        | wake hp' hs' => cases hp'
        | drain_done hp' hq' => cases hq'
        | exec_one x rest hp' hq' =>
            injection hq' with hx hrest'
            subst hx
            subst hrest'
            have := ih (es ++ [w]) ds t hrest hp
            simpa using this

lemma waiting_stop_trace {W : Type} (ws es ds : List W) (t : WState W)
    (h : Relation.ReflTransGen wstep ⟨true, true, .waiting, ws, es, ds⟩ t)
    (hp : t.phase = .exited) : t = ⟨true, false, .exited, [], es ++ ws, ds⟩ := by
  rcases h.cases_head with heq | ⟨c, hstep, hrest⟩
  · rw [← heq] at hp; cases hp
  · cases hstep with
    | exit_loop hp' hs' => cases hp'
    | enter_wait hp' hs' => cases hp'
    | exec_one x rest hp' hq' => cases hp'
    | drain_done hp' hq' => cases hp'
    | wake hp' hs' => exact draining_stop_trace false ws es ds t hrest hp

lemma draining_reaches_exit {W : Type} (sig : Bool) (ws : List W) :
    ∀ es ds : List W,
      Relation.ReflTransGen wstep ⟨true, sig, .draining, ws, es, ds⟩
        ⟨true, sig, .exited, [], es ++ ws, ds⟩ := by
  induction ws with
  | nil =>
      intro es ds
      have h1 : wstep (⟨true, sig, .draining, [], es, ds⟩ : WState W)
          ⟨true, sig, .atHead, [], es, ds⟩ := wstep.drain_done _ rfl rfl
      have h2 : wstep (⟨true, sig, .atHead, [], es, ds⟩ : WState W)
          ⟨true, sig, .exited, [], es, ds⟩ := wstep.exit_loop _ rfl rfl
      simpa using Relation.ReflTransGen.head h1 (Relation.ReflTransGen.head h2 .refl)
  | cons w ws ih =>
      intro es ds
      have h1 : wstep (⟨true, sig, .draining, w :: ws, es, ds⟩ : WState W)
          ⟨true, sig, .draining, ws, es ++ [w], ds⟩ := wstep.exec_one _ w ws rfl rfl
      have h2 := ih (es ++ [w]) ds
      simpa using Relation.ReflTransGen.head h1 h2

/-- C10: when the stop flag is already set and the Signal raised (as
~worker_task does) while the worker is parked in its wait, the worker
still performs one final drain: it wakes, executes every closure that
was in the work queue, re-checks the stop flag at the loop head and only
then exits — formally, the worker thread's own steps reach the exited
state with exactly the queued closures appended to the executed history,
and every worker-only execution reaching the exited state has executed
them all and emptied the queue; moreover a closure delegated after that
final queue-empty check (at the loop head, with stop set) can be left
unexecuted at exit. -/
theorem worker_final_drain {W : Type} (ws es ds : List W) (w : W) :
    Relation.ReflTransGen wstep ⟨true, true, .waiting, ws, es, ds⟩
        ⟨true, false, .exited, [], es ++ ws, ds⟩ ∧
      (∀ t : WState W,
        Relation.ReflTransGen wstep ⟨true, true, .waiting, ws, es, ds⟩ t →
        t.phase = .exited → t.executed = es ++ ws ∧ t.workQueue = []) ∧
      Relation.ReflTransGen sysstep ⟨true, true, .atHead, [], es, ds⟩
        ⟨true, true, .exited, [w], es, ds ++ [w]⟩ := by
  refine ⟨?_, ?_, ?_⟩
  · have h1 : wstep (⟨true, true, .waiting, ws, es, ds⟩ : WState W)
        ⟨true, false, .draining, ws, es, ds⟩ := wstep.wake _ rfl rfl
    exact Relation.ReflTransGen.head h1 (draining_reaches_exit false ws es ds)
  · intro t h hp
    rw [waiting_stop_trace ws es ds t h hp]
    exact ⟨rfl, rfl⟩
  · have h1 : sysstep (⟨true, true, .atHead, [], es, ds⟩ : WState W)
        ⟨true, true, .atHead, [w], es, ds ++ [w]⟩ := by
      have := sysstep.client (⟨true, true, .atHead, [], es, ds⟩ : WState W) w
      simpa [wdelegate, sq_emplace] using this
    have h2 : sysstep (⟨true, true, .atHead, [w], es, ds ++ [w]⟩ : WState W)
        ⟨true, true, .exited, [w], es, ds ++ [w]⟩ :=
      sysstep.worker _ _ (wstep.exit_loop _ rfl rfl)
    exact Relation.ReflTransGen.head h1 (Relation.ReflTransGen.head h2 .refl)

/- ================================================================
   tools::periodic_task<Context>  (src/tools/periodic_task.hpp)
   Time is modelled in whole microseconds (Nat).  The thread running
   periodic_call is modelled iteration by iteration; the routine's
   duration is an arbitrary parameter of each iteration.
   ================================================================ -/

/-- The sleep duration computed at periodic_task.hpp lines 95-103:
static_cast<int>(ratio * remaining.count()) with ratio = 0.96 when
earliest-deadline scheduling was enabled and 0.9 otherwise.  The double
arithmetic is modelled exactly over ℚ: for every count in int range the
IEEE-754 double product of 0.9 (resp. 0.96) with the count truncates to
the same integer as the exact rational product — the relative error of
the rounded constant and product (about 2.5e-17) stays below the
half-ulp bound 1.1e-16, so the truncated value can only differ where the
exact product is an integer m, and there the nearest double to the
product is m itself. -/
def ptask_sleep_amount (edf : Bool) (remaining : Nat) : Nat :=
  ⌊(if edf then (96 : ℚ) / 100 else (90 : ℚ) / 100) * remaining⌋₊

/-- Clock state of the thread inside periodic_task::periodic_call: the
current instant and the current deadline, in microseconds. -/
structure PState where
  now : Nat
  deadline : Nat

/-- Observable outcome of one iteration of the periodic_call loop. -/
structure PIter where
  fireTime : Nat
  sleepStart : Nat
  sleepDur : Nat
  next : PState

/-- One iteration of the loop of periodic_task::periodic_call
(periodic_task.hpp lines 77-106) whose routine invocation takes d
microseconds: busy-wait until the deadline has passed (lines 80-84),
invoke the routine (line 87), advance the deadline by one period
(line 90), re-read the clock (line 92), and if time remains before the
new deadline sleep for the computed fraction of it (lines 95-105). -/
def periodic_iter (edf : Bool) (period d : Nat) (s : PState) : PIter :=
  let fire := max s.now s.deadline
  let afterRoutine := fire + d
  let dl := s.deadline + period
  let sl := if afterRoutine < dl then ptask_sleep_amount edf (dl - afterRoutine) else 0
  ⟨fire, afterRoutine, sl, ⟨afterRoutine + sl, dl⟩⟩

/-- State on entry of periodic_call (lines 72-73): start_time = now and
deadline = start_time + m_period. -/
def periodic_init (start period : Nat) : PState :=
  ⟨start, start + period⟩

/-- The periodic_call loop running one iteration per entry of ds (the
routine durations), stop never requested. -/
def periodic_run (edf : Bool) (period : Nat) (ds : List Nat) (s : PState) : PState :=
  ds.foldl (fun st d => (periodic_iter edf period d st).next) s

/-- The periodic_call loop with a stop request arriving at the instant
stopAt: the while condition reads m_stop_task at the loop head only
(line 77) — neither the busy-wait spin (lines 80-84) nor the sleep
(line 103) re-checks it.  Returns the exit instant and the
(sleepStart, sleepDur) event of every iteration that ran, or none when
ds supplies fewer iterations than the loop consumes before exit. -/
def periodic_loop (edf : Bool) (period stopAt : Nat) :
    List Nat → PState → Option (Nat × List (Nat × Nat))
  | ds, s =>
    if stopAt ≤ s.now then some (s.now, [])
    else
      match ds with
      | [] => none
      | d :: rest =>
        let r := periodic_iter edf period d s
        match periodic_loop edf period stopAt rest r.next with
        | some (e, evs) => some (e, (r.sleepStart, r.sleepDur) :: evs)
        | none => none

lemma ptask_sleep_amount_eq (edf : Bool) (r : Nat) :
    ptask_sleep_amount edf r = if edf then 24 * r / 25 else 9 * r / 10 := by
  cases edf with
  | false =>
      simp only [ptask_sleep_amount, Bool.false_eq_true, if_false]
      rw [show ((90 : ℚ) / 100) * r = ((9 * r : ℕ) : ℚ) / ((10 : ℕ) : ℚ) by push_cast; ring]
      exact Nat.floor_div_eq_div (9 * r) 10
  | true =>
      simp only [ptask_sleep_amount, if_true]
      rw [show ((96 : ℚ) / 100) * r = ((24 * r : ℕ) : ℚ) / ((25 : ℕ) : ℚ) by push_cast; ring]
      exact Nat.floor_div_eq_div (24 * r) 25

/-- C6: periodic_call sets its first deadline to start_time + period and
every later deadline to the previous deadline plus the period, so after
k completed iterations the deadline is start + (k+1)·period whatever the
routine durations were — the routine's execution time never shifts the
schedule. -/
theorem periodic_deadline_schedule (edf : Bool) (period start : Nat) (ds : List Nat) :
    (periodic_init start period).deadline = start + period ∧
      (periodic_run edf period ds (periodic_init start period)).deadline
        = start + (ds.length + 1) * period := by
  refine ⟨rfl, ?_⟩
  have h : ∀ (l : List Nat) (s : PState),
      (periodic_run edf period l s).deadline = s.deadline + l.length * period := by
    intro l
    induction l with
    | nil => intro s; simp [periodic_run]
    | cons d rest ih =>
        intro s
        have : periodic_run edf period (d :: rest) s
            = periodic_run edf period rest (periodic_iter edf period d s).next := rfl
        rw [this, ih]
        simp only [periodic_iter, List.length_cons]
        ring
  rw [h]
  simp only [periodic_init]
  ring

/-- C9: in every periodic_call iteration, if time remains before the new
deadline when the routine returns (sleepStart is the re-read clock
instant, next.deadline the new deadline), the thread sleeps for the
fixed truncated fraction of the remaining microseconds — 24/25 (= 0.96)
of it under earliest-deadline scheduling and 9/10 (= 0.9) otherwise —
after which the clock stands at sleepStart + sleepDur and the next
iteration re-enters the busy-wait; when no time remains it does not
sleep at all. -/
theorem periodic_sleep_fraction (edf : Bool) (period d : Nat) (s : PState) :
    (periodic_iter edf period d s).sleepDur
        = (if (periodic_iter edf period d s).sleepStart
              < (periodic_iter edf period d s).next.deadline then
            (if edf then
              24 * ((periodic_iter edf period d s).next.deadline
                  - (periodic_iter edf period d s).sleepStart) / 25
            else
              9 * ((periodic_iter edf period d s).next.deadline
                  - (periodic_iter edf period d s).sleepStart) / 10)
          else 0) ∧
      (periodic_iter edf period d s).next.now
        = (periodic_iter edf period d s).sleepStart
            + (periodic_iter edf period d s).sleepDur := by
  refine ⟨?_, rfl⟩
  simp only [periodic_iter]
  by_cases h : max s.now s.deadline + d < s.deadline + period
  · simp [h, ptask_sleep_amount_eq]
  · simp [h]

lemma periodic_loop_exit_ge (edf : Bool) (period stopAt : Nat) :
    ∀ (ds : List Nat) (s : PState) (e : Nat) (evs : List (Nat × Nat)),
      periodic_loop edf period stopAt ds s = some (e, evs) → stopAt ≤ e := by
  intro ds
  induction ds with
  | nil =>
      intro s e evs h
      rw [periodic_loop] at h
      by_cases hc : stopAt ≤ s.now
      · rw [if_pos hc] at h
        injection h with h
        injection h with h1 h2
        rw [← h1]
        exact hc
      · rw [if_neg hc] at h
        cases h
  | cons d rest ih =>
      intro s e evs h
      rw [periodic_loop] at h
      by_cases hc : stopAt ≤ s.now
      · rw [if_pos hc] at h
        injection h with h
        injection h with h1 h2
        rw [← h1]
        exact hc
      · rw [if_neg hc] at h
        simp only at h
        cases hrec : periodic_loop edf period stopAt rest (periodic_iter edf period d s).next with
        | none => rw [hrec] at h; cases h
        | some p =>
            rw [hrec] at h
            obtain ⟨e', evs'⟩ := p
            injection h with h
            injection h with h1 h2
            rw [← h1]
            exact ih _ e' evs' hrec

/-- Concrete evaluation of the periodic_call loop: period 100 µs, no
earliest-deadline hint, zero-duration routine, stop flag set at instant
10 while the thread busy-waits towards the deadline at 100. -/
lemma periodic_loop_concrete :
    periodic_loop false 100 10 [0, 0] ⟨0, 100⟩ = some (190, [(100, 90)]) := by
  have h90 : ptask_sleep_amount false 100 = 90 := by
    rw [ptask_sleep_amount_eq]
    norm_num
  have hiter : periodic_iter false 100 0 ⟨0, 100⟩ = ⟨100, 100, 90, ⟨190, 200⟩⟩ := by
    rw [periodic_iter]
    norm_num [h90]
  rw [periodic_loop]
  norm_num [hiter]
  rw [periodic_loop]
  norm_num

/-- C8 (counterexample): with period 100 µs, no earliest-deadline hint,
a zero-duration routine and the stop flag set at instant 10 — while the
thread is inside its busy-wait spin towards the deadline at 100 — the
periodic_call thread still spins to instant 100, runs the routine, then
sleeps 90 µs starting at instant 100 (entirely after the stop request,
which the wake-free destructor cannot interrupt) and exits only at
instant 190, 180 µs past the stop request: the thread does remain in a
wait (spin and sleep) beyond the stop request, refuting the claim. -/
theorem periodic_stop_wait_counterexample :
    periodic_loop false 100 10 [0, 0] ⟨0, 100⟩ = some (190, [(100, 90)]) ∧
      (10 : Nat) < 100 ∧ (0 : Nat) < 90 ∧ (10 : Nat) < 190 :=
  ⟨periodic_loop_concrete, by norm_num, by norm_num, by norm_num⟩

/-- C8 (amended): WorkerTask's loop checks the atomic stop flag once per
loop iteration and its destructor performs stop-then-signal, so a worker
parked in its wait with the stop flag set and the signal raised always
reaches loop exit (it is never left blocked past the stop request).
PeriodicTask's loop also checks its stop flag once per iteration, but
only at the loop head and with no wake in its destructor: the thread
exits at a loop-head check at or after the stop instant, and until that
check it may keep spinning and sleeping out the current iteration (see
the counterexample), bounded by the iteration in progress. -/
theorem active_object_stop_amended {W : Type} (ws es ds : List W)
    (edf : Bool) (period stopAt : Nat) (durs : List Nat) (s : PState)
    (e : Nat) (evs : List (Nat × Nat)) :
    (∃ t : WState W, Relation.ReflTransGen wstep ⟨true, true, .waiting, ws, es, ds⟩ t ∧
        t.phase = .exited) ∧
      (periodic_loop edf period stopAt durs s = some (e, evs) → stopAt ≤ e) := by
  constructor
  · refine ⟨⟨true, false, .exited, [], es ++ ws, ds⟩, ?_, rfl⟩
    have h1 : wstep (⟨true, true, .waiting, ws, es, ds⟩ : WState W)
        ⟨true, false, .draining, ws, es, ds⟩ := wstep.wake _ rfl rfl
    exact Relation.ReflTransGen.head h1 (draining_reaches_exit false ws es ds)
  · exact periodic_loop_exit_ge edf period stopAt durs s e evs

/- ================================================================
   tools::sync_subject<Topic, Evt>
   tools/sync_observer.hpp is not under src/ (only its callers in
   src/main.cpp are), so the subject/observer registry is modelled from
   the spec, sections 3 and 4.3.
   ================================================================ -/

/-- Modelled from the spec: one entry of a topic's ordered subscriber
list — either a weak reference to an Observer capability (identified
here by an observer identity of type Obs) or a named callback closure. -/
inductive SubEntry (Obs : Type) where
  | observer : Obs → SubEntry Obs
  | handler : String → SubEntry Obs
deriving DecidableEq

/-- Modelled from the spec: the sync_subject state — its diagnostic name
and the subscription table, a mapping from Topic to the ordered sequence
of subscriber entries, kept as an association list. -/
structure Subject (Topic Obs : Type) where
  name : String
  table : List (Topic × List (SubEntry Obs))

/-- Modelled from the spec: look up the subscriber list of a topic; a
missing topic has none (publish then is a no-op). -/
def tableFind {Topic Obs : Type} [DecidableEq Topic] :
    List (Topic × List (SubEntry Obs)) → Topic → Option (List (SubEntry Obs))
  | [], _ => none
  | row :: rest, t => if t = row.1 then some row.2 else tableFind rest t

/-- Modelled from the spec: subscribe appends an entry at the end of the
topic's subscriber list (duplicate subscribe calls are additive),
creating the topic's row on first use. -/
def tableAdd {Topic Obs : Type} [DecidableEq Topic] :
    List (Topic × List (SubEntry Obs)) → Topic → SubEntry Obs →
      List (Topic × List (SubEntry Obs))
  | [], t, e => [(t, [e])]
  | (t1, es) :: rest, t, e =>
      if t = t1 then (t1, es ++ [e]) :: rest else (t1, es) :: tableAdd rest t e

/-- Modelled from the spec: Subject::subscribe(topic, observer). -/
def subscribe_obs {Topic Obs : Type} [DecidableEq Topic]
    (s : Subject Topic Obs) (t : Topic) (o : Obs) : Subject Topic Obs :=
  { s with table := tableAdd s.table t (.observer o) }

/-- Modelled from the spec: Subject::subscribe(topic, name, callback). -/
def subscribe_handler {Topic Obs : Type} [DecidableEq Topic]
    (s : Subject Topic Obs) (t : Topic) (nm : String) : Subject Topic Obs :=
  { s with table := tableAdd s.table t (.handler nm) }

/-- Modelled from the spec: Subject::unsubscribe(topic, observer)
removes that observer's entries from that topic's subscriber list by
identity; entries of other topics and named closures are untouched. -/
def unsubRow {Topic Obs : Type} [DecidableEq Topic] [DecidableEq Obs]
    (t : Topic) (o : Obs) (row : Topic × List (SubEntry Obs)) :
    Topic × List (SubEntry Obs) :=
  if row.1 = t then (row.1, row.2.filter (fun e => !(e == SubEntry.observer o)))
  else row

def unsubscribe_obs {Topic Obs : Type} [DecidableEq Topic] [DecidableEq Obs]
    (s : Subject Topic Obs) (t : Topic) (o : Obs) : Subject Topic Obs :=
  { s with table := s.table.map (unsubRow t o) }

/-- Modelled from the spec: one inform(topic, payload, origin) call
delivered to one subscriber entry during Subject::publish. -/
structure Delivery (Topic Obs P : Type) where
  target : SubEntry Obs
  topic : Topic
  payload : P
  origin : String

/-- Modelled from the spec: whether an entry is delivered to — a named
closure always is; an observer entry only while its weak reference is
still live (live o = false models an expired observer, skipped
silently). -/
def entry_live {Obs : Type} (live : Obs → Bool) : SubEntry Obs → Bool
  | .observer o => live o
  | .handler _ => true

/-- Modelled from the spec: Subject::publish(topic, payload) looks up
the topic's subscriber list (missing topic is a no-op, not an error)
and, for each live subscriber in subscription order, invokes
inform(topic, payload, subject name) on the calling thread; expired
observers are skipped silently. -/
def publish {Topic Obs P : Type} [DecidableEq Topic]
    (s : Subject Topic Obs) (live : Obs → Bool) (t : Topic) (p : P) :
    List (Delivery Topic Obs P) :=
  match tableFind s.table t with
  | none => []
  | some entries =>
      entries.filterMap (fun e =>
        match e with
        | .observer o => if live o then some ⟨e, t, p, s.name⟩ else none
        | .handler _ => some ⟨e, t, p, s.name⟩)

/-- The observer identity carried by an entry, if any. -/
def entry_observer {Obs : Type} : SubEntry Obs → Option Obs
  | .observer o => some o
  | .handler _ => none

/-- The observers currently subscribed to a topic, in subscription
order. -/
def subscribers {Topic Obs : Type} [DecidableEq Topic]
    (s : Subject Topic Obs) (t : Topic) : List Obs :=
  ((tableFind s.table t).getD []).filterMap entry_observer

/-- The topic's entries that a publish call delivers to, in
subscription order. -/
def live_entries {Topic Obs : Type} [DecidableEq Topic]
    (s : Subject Topic Obs) (live : Obs → Bool) (t : Topic) : List (SubEntry Obs) :=
  ((tableFind s.table t).getD []).filter (entry_live live)

/-- The observers informed by one publish call, in delivery order. -/
def published_observers {Topic Obs P : Type} [DecidableEq Topic]
    (s : Subject Topic Obs) (live : Obs → Bool) (t : Topic) (p : P) : List Obs :=
  (publish s live t p).filterMap (fun dv => entry_observer dv.target)

lemma publish_entries {Topic Obs P : Type} [DecidableEq Topic]
    (s : Subject Topic Obs) (live : Obs → Bool) (t : Topic) (p : P) :
    publish s live t p
      = (live_entries s live t).map
          (fun e => (⟨e, t, p, s.name⟩ : Delivery Topic Obs P)) := by
  unfold publish live_entries
  cases tableFind s.table t with
  | none => rfl
  | some es =>
      simp only [Option.getD_some]
      induction es with
      | nil => rfl
      | cons e rest ih =>
          cases e with
          | observer o =>
              by_cases hl : live o = true
              · simp [List.filterMap_cons, List.filter_cons, entry_live, hl, ih]
              · simp [List.filterMap_cons, List.filter_cons, entry_live, hl, ih]
          | handler nm =>
              simp [List.filterMap_cons, List.filter_cons, entry_live, ih]

lemma filter_filterMap_observers {Obs : Type} (live : Obs → Bool)
    (l : List (SubEntry Obs)) :
    (l.filter (entry_live live)).filterMap entry_observer
      = (l.filterMap entry_observer).filter live := by
  induction l with
  | nil => rfl
  | cons e rest ih =>
      cases e with
      | observer o =>
          by_cases hl : live o = true
          · simp [List.filter_cons, List.filterMap_cons, entry_live, entry_observer, hl, ih]
          · simp [List.filter_cons, List.filterMap_cons, entry_live, entry_observer, hl, ih]
      | handler nm =>
          simp [List.filter_cons, List.filterMap_cons, entry_live, entry_observer, ih]

lemma published_observers_eq {Topic Obs P : Type} [DecidableEq Topic]
    (s : Subject Topic Obs) (live : Obs → Bool) (t : Topic) (p : P) :
    published_observers s live t p = (subscribers s t).filter live := by
  unfold published_observers subscribers
  rw [publish_entries, List.filterMap_map]
  have h : ((fun dv => entry_observer dv.target) ∘
      (fun e => (⟨e, t, p, s.name⟩ : Delivery Topic Obs P))) = entry_observer := rfl
  rw [h]
  exact filter_filterMap_observers live _

lemma unsubRow_fst {Topic Obs : Type} [DecidableEq Topic] [DecidableEq Obs]
    (t : Topic) (o : Obs) (row : Topic × List (SubEntry Obs)) :
    (unsubRow t o row).1 = row.1 := by
  unfold unsubRow
  split <;> rfl

lemma tableFind_unsubscribe {Topic Obs : Type} [DecidableEq Topic] [DecidableEq Obs]
    (tbl : List (Topic × List (SubEntry Obs))) (t : Topic) (o : Obs) :
    tableFind (tbl.map (unsubRow t o)) t
      = (tableFind tbl t).map
          (fun es => es.filter (fun e => !(e == SubEntry.observer o))) := by
  induction tbl with
  | nil => rfl
  | cons row rest ih =>
      simp only [List.map_cons, tableFind, unsubRow_fst]
      by_cases h : t = row.1
      · rw [if_pos h, if_pos h]
        have h2 : row.1 = t := h.symm
        simp [unsubRow, h2]
      · rw [if_neg h, if_neg h]
        exact ih

lemma not_published_after_unsubscribe {Topic Obs P : Type}
    [DecidableEq Topic] [DecidableEq Obs]
    (s : Subject Topic Obs) (live : Obs → Bool) (t : Topic) (p : P) (o : Obs) :
    o ∉ published_observers (unsubscribe_obs s t o) live t p := by
  rw [published_observers_eq]
  intro hmem
  rw [List.mem_filter] at hmem
  obtain ⟨hmem, -⟩ := hmem
  unfold subscribers unsubscribe_obs at hmem
  simp only at hmem
  rw [tableFind_unsubscribe] at hmem
  cases hfind : tableFind s.table t with
  | none => rw [hfind] at hmem; simp at hmem
  | some es =>
      rw [hfind] at hmem
      simp only [Option.map_some', Option.getD_some, List.mem_filterMap] at hmem
      obtain ⟨e, he, hobs⟩ := hmem
      rw [List.mem_filter] at he
      obtain ⟨-, hkeep⟩ := he
      cases e with
      | observer o1 =>
          have : o1 = o := by
            simpa [entry_observer] using hobs
          subst this
          simp at hkeep
      | handler nm => simp [entry_observer] at hobs

/-- C1: publish delivers inform(topic, payload, subject name) to exactly
the live entries currently subscribed to the published topic, in
subscription order — the informed observers are exactly the subscribed
live observers of that topic, so an observer subscribed only to another
topic (hence not among this topic's subscribers) receives nothing — and
after unsubscribe(topic, observer) a publish on that topic never informs
that observer again. -/
theorem subject_publish_spec {Topic Obs P : Type} [DecidableEq Topic] [DecidableEq Obs]
    (s : Subject Topic Obs) (live : Obs → Bool) (t : Topic) (p : P) (o : Obs) :
    publish s live t p
        = (live_entries s live t).map
            (fun e => (⟨e, t, p, s.name⟩ : Delivery Topic Obs P)) ∧
      published_observers s live t p = (subscribers s t).filter live ∧
      (o ∉ subscribers s t → o ∉ published_observers s live t p) ∧
      o ∉ published_observers (unsubscribe_obs s t o) live t p := by
  refine ⟨publish_entries s live t p, published_observers_eq s live t p, ?_,
    not_published_after_unsubscribe s live t p o⟩
  intro hnot hmem
  rw [published_observers_eq, List.mem_filter] at hmem
  exact hnot hmem.1

/- ================================================================
   Concrete witnesses.
   ================================================================ -/

/-- A concrete subject for the witness below: observers 1 and 2
subscribed to topic 0, in that order (the scenario of
test_publish_subscribe in src/main.cpp). -/
def demo_subject : Subject Nat Nat :=
  ⟨"source1", [(0, [SubEntry.observer 1, SubEntry.observer 2])]⟩

/-- Witness for subject_publish_spec: on demo_subject with every
observer live, publishing "toto" on topic 0 delivers to the live
entries in subscription order, the informed observers are the
subscribed ones, unsubscribed observer 3 receives nothing, and after
unsubscribe of observer 1 it is never informed. -/
theorem subject_publish_spec_witness :
    (publish demo_subject (fun _ => true) 0 "toto"
        = (live_entries demo_subject (fun _ => true) 0).map
            (fun e => (⟨e, 0, "toto", demo_subject.name⟩ : Delivery Nat Nat String))) ∧
      published_observers demo_subject (fun _ => true) 0 "toto"
        = (subscribers demo_subject 0).filter (fun _ => true) ∧
      (3 : Nat) ∉ published_observers demo_subject (fun _ => true) 0 "toto" ∧
      (1 : Nat) ∉ published_observers (unsubscribe_obs demo_subject 0 1)
        (fun _ => true) 0 "toto" :=
  ⟨(subject_publish_spec demo_subject (fun _ => true) 0 "toto" 3).1,
   (subject_publish_spec demo_subject (fun _ => true) 0 "toto" 3).2.1,
   (subject_publish_spec demo_subject (fun _ => true) 0 "toto" 3).2.2.1 (by decide),
   (subject_publish_spec demo_subject (fun _ => true) 0 "toto" 1).2.2.2⟩

/-- Witness for worker_fifo_drain: in the history delegate 5, enter
wait, wake, execute, drain-done, the closure is executed exactly once in
order; and a concrete drain-exit step has an empty queue. -/
theorem worker_fifo_drain_witness :
    (([5] : List Nat) ++ [] = [5] ∧ ([5] : List Nat) <+: [5]) ∧
      (⟨false, false, WPhase.draining, [], [5], [5]⟩ : WState Nat).workQueue = [] := by
  constructor
  · have htr : Relation.ReflTransGen sysstep (winit : WState Nat)
        ⟨false, false, .atHead, [], [5], [5]⟩ := by
      refine Relation.ReflTransGen.head (sysstep.client winit 5) ?_
      refine Relation.ReflTransGen.head (sysstep.worker _ _ (wstep.enter_wait _ rfl rfl)) ?_
      refine Relation.ReflTransGen.head (sysstep.worker _ _ (wstep.wake _ rfl rfl)) ?_
      refine Relation.ReflTransGen.head (sysstep.worker _ _ (wstep.exec_one _ 5 [] rfl rfl)) ?_
      exact Relation.ReflTransGen.head (sysstep.worker _ _ (wstep.drain_done _ rfl rfl)) .refl
    exact worker_fifo_drain.1 _ htr
  · exact worker_fifo_drain.2
      ⟨false, false, WPhase.draining, [], [5], [5]⟩
      ⟨false, false, WPhase.atHead, [], [5], [5]⟩
      (wstep.drain_done _ rfl rfl) rfl (by decide)

/-- Witness for active_object_stop_amended: the worker parked with
closure 7 queued, stop set and signal raised reaches exit, and the
concrete periodic run stopped at instant 10 exits at instant 190 ≥ 10. -/
theorem active_object_stop_amended_witness :
    (∃ t : WState Nat,
        Relation.ReflTransGen wstep ⟨true, true, .waiting, [7], [], [7]⟩ t ∧
          t.phase = WPhase.exited) ∧
      (10 : Nat) ≤ 190 :=
  ⟨(active_object_stop_amended [7] [] [7] false 100 10 [0, 0] ⟨0, 100⟩ 190 [(100, 90)]).1,
   (active_object_stop_amended [7] [] [7] false 100 10 [0, 0] ⟨0, 100⟩ 190
      [(100, 90)]).2 periodic_loop_concrete⟩

/-- Witness for worker_final_drain: with closure 5 queued at the final
wake, the exited state reached by the worker's own steps has executed
exactly that closure and an empty queue. -/
theorem worker_final_drain_witness :
    (⟨true, false, WPhase.exited, [], [5], [5]⟩ : WState Nat).executed
        = ([] : List Nat) ++ [5] ∧
      (⟨true, false, WPhase.exited, [], [5], [5]⟩ : WState Nat).workQueue = [] :=
  (worker_final_drain ([5] : List Nat) [] [5] 9).2.1
    ⟨true, false, WPhase.exited, [], [5], [5]⟩
    (worker_final_drain ([5] : List Nat) [] [5] 9).1 rfl
